import Mathlib

/-!
Verification development for the keyword-matching core of the repository
(`Disease_match.py`): the tokenizer `get_transcript_words` and the scorer
`match_disease`.

Modelling conventions:
* Strings are Lean `String`s; all character-level work happens on `List Char`
  (`String.toList` is definitionally the underlying character list).
* Python floats are modelled by `ℚ`; Python `round(x, 1)` is modelled by
  `round1` (round-half-up at one decimal; no statement below sits at a tie
  point, where Python banker rounding on binary floats could differ).
* The third-party fuzzy metric `rapidfuzz.fuzz.partial_ratio` is an external
  collaborator; it is modelled as an arbitrary parameter
  `sim : String → String → ℚ` whose range is constrained to `[0, 100]` in the
  hypotheses of the theorems that need it.
* The keyword folder is modelled as `Option (List KFile)`: `none` is a missing
  directory, and a file whose `lines` field is `none` is one whose read raises
  an error (the code logs and skips it).
-/

/-- A contiguous-match test: `leadsL n h` is true when the list `h` starts
with the list `n`. -/
def leadsL : List Char → List Char → Bool
  | [], _ => true
  | _ :: _, [] => false
  | a :: as, b :: bs => a = b && leadsL as bs

/-- Literal substring search, the model of `re.search(re.escape(dk), text)`:
`occursIn n h` is true when `n` occurs contiguously anywhere in `h`. -/
def occursIn (n : List Char) : List Char → Bool
  | [] => leadsL n []
  | c :: cs => leadsL n (c :: cs) || occursIn n cs

/-- Stable insertion of `x` into `l`: `x` goes in front of the first element
`y` with `le x y`. -/
def insOrd (le : α → α → Bool) (x : α) : List α → List α
  | [] => [x]
  | y :: ys => if le x y then x :: y :: ys else y :: insOrd le x ys

/-- Stable insertion sort; with `le x y = (key y ≤ key x)` this is exactly the
extension of Python `sorted(l, key=key, reverse=True)` (stable, descending),
and with a total order `le` it is the extension of Python `sorted(l)`. -/
def sortOrd (le : α → α → Bool) : List α → List α
  | [] => []
  | x :: xs => insOrd le x (sortOrd le xs)

/-- Lexicographic comparison of character lists by code point, the order
Python `sorted` uses on strings. -/
def lexLe : List Char → List Char → Bool
  | [], _ => true
  | _ :: _, [] => false
  | a :: as, b :: bs => if a = b then lexLe as bs else decide (a < b)

/-- String comparison by code-point lexicographic order. -/
def strLe (a b : String) : Bool := lexLe a.toList b.toList

/-- Helper of `splitWs`: accumulates the current (reversed) word while
scanning. -/
def wordsAux : List Char → List Char → List String
  | [], acc => if acc.isEmpty then [] else [String.mk acc.reverse]
  | c :: cs, acc =>
    if c.isWhitespace then
      if acc.isEmpty then wordsAux cs [] else String.mk acc.reverse :: wordsAux cs []
    else wordsAux cs (c :: acc)

/-- The model of Python `text.split()`: split on whitespace runs, dropping
empty fragments. -/
def splitWs (cs : List Char) : List String := wordsAux cs []

/-- The model of Python `text.lower()` (ASCII fragment). -/
def lowerL (cs : List Char) : List Char := cs.map Char.toLower

/-- A `\w` character: letter, digit or underscore (ASCII fragment). -/
def isWordChar (c : Char) : Bool := c.isAlphanum || c = '_'

/-- The model of `re.sub(r"[^\w\s]", "", text)`: keep exactly the word
characters and the whitespace. -/
def cleanL (cs : List Char) : List Char :=
  cs.filter (fun c => isWordChar c || c.isWhitespace)

/-- The stop-word set of `get_transcript_words`, copied verbatim from the
source (the Python set literal contains some repeated entries; as a list with
membership tests the repetitions are harmless and are kept for fidelity). -/
def stop_words : List String :=
  ["a", "an", "and", "are", "as", "at", "be", "but", "by", "for", "if",
   "in", "is", "it", "its", "it\x27s", "of", "on", "or", "so", "such",
   "that", "the", "their", "then", "there", "these", "they", "this",
   "to", "was", "with",
   "i", "me", "my", "myself", "we", "our", "ours", "ourselves", "you",
   "your", "yours", "yourself", "yourselves", "he", "him", "his",
   "himself", "she", "her", "hers", "herself", "they", "them", "their",
   "theirs", "themselves",
   "am", "been", "being", "can", "could", "did", "do", "does", "doesn\x27t",
   "doing", "don\x27t", "get", "gets", "getting", "got", "gotten", "go",
   "goes", "going", "had", "has", "hasn\x27t", "have", "haven\x27t", "having",
   "is", "isn\x27t", "make", "makes", "making", "should", "used", "was",
   "wasn\x27t", "were", "weren\x27t", "will", "would",
   "about", "after", "against", "all", "almost", "also", "although",
   "always", "any", "anywhere", "because", "become", "before", "bit",
   "chapped", "clothes", "come", "concern", "cuts", "else", "especially",
   "even", "every", "feel", "feels", "feeling", "find", "found", "from",
   "further", "here", "how", "however", "just", "kind", "know", "like",
   "little", "look", "looks", "made", "many", "may", "more", "most",
   "much", "must", "now", "noticed", "onto", "other", "over", "own",
   "pexing", "quite", "read", "really", "see", "seen", "seem", "seemed",
   "see", "show", "since", "skin", "small", "some", "sometimes", "soon",
   "spot", "spread", "started", "still", "such", "than", "thank", "thanks",
   "that\x27s", "there", "therefore", "these", "those", "through", "time",
   "times", "today", "too", "try", "up", "upon", "us", "very", "want",
   "wanted", "way", "well", "what", "when", "where", "which", "while",
   "who", "whom", "why", "work"]

/-- The raw token list before stop-word filtering: lowercase, strip
punctuation, split on whitespace (lines 36-79 of `Disease_match.py`). -/
def all_words (text : String) : List String :=
  splitWs (cleanL (lowerL text.toList))

/-- The model of `get_transcript_words`: lowercase, remove punctuation, split,
drop stop words and words of length at most 2, and return the sorted set of
the remaining unique words. -/
def get_transcript_words (text : String) : List String :=
  sortOrd strLe
    (((all_words text).filter
      (fun word => !stop_words.contains word && decide (2 < word.length))).dedup)

/-- Join a token list with single spaces (character-list level). -/
def joinSpaceL : List (List Char) → List Char
  | [] => []
  | [w] => w
  | w :: ws => w ++ ' ' :: joinSpaceL ws

/-- Join a token list with single spaces, the model of `" ".join(tokens)`. -/
def joinTokens (l : List String) : String :=
  String.mk (joinSpaceL (l.map String.toList))

/-- The model of Python `round(x, 1)` on the rationals. -/
def round1 (q : ℚ) : ℚ := (round (10 * q) : ℤ) / 10

/-- The extra stop-token set of `match_disease` (line 88). -/
def stop_tokens : List String :=
  ["a", "an", "the", "is", "it", "i", "me", "my", "we", "you", "he", "she",
   "they", "small", "large"]

/-- The re-filtering of the transcript tokens at the start of `match_disease`
(line 89): keep tokens of length at least 3 that are not stop tokens. -/
def filtered_keywords (extracted_keywords : List String) : List String :=
  extracted_keywords.filter
    (fun k => decide (3 ≤ k.length) && !stop_tokens.contains k)

/-- The inner loop of the fuzzy scorer (lines 126-131): the best similarity
between the disease keyword `dk` and any transcript token, starting from 0. -/
def fuzzyBest (sim : String → String → ℚ) (extracted : List String)
    (dk : String) : ℚ :=
  extracted.foldl (fun best ek => if sim ek dk > best then sim ek dk else best) 0

/-- The fuzzy sub-score of one category (lines 118-135): the average over the
length-filtered disease keywords of the best similarity with a transcript
token, and 0 when no keyword survives the length filter. -/
def avg_fuzzy (sim : String → String → ℚ) (extracted : List String)
    (disease_keywords_long : List String) : ℚ :=
  if disease_keywords_long = [] then 0
  else ((disease_keywords_long.map (fuzzyBest sim extracted)).sum) /
    disease_keywords_long.length

/-- The exact-coverage counter (lines 139-143): how many length-filtered
disease keywords occur verbatim in the raw transcript text. -/
def exact_matches (disease_keywords_long : List String)
    (transcript_text : String) : ℕ :=
  (disease_keywords_long.filter
    (fun dk => occursIn dk.toList transcript_text.toList)).length

/-- The exact sub-score of one category (line 145). -/
def exact_coverage (disease_keywords_long : List String)
    (transcript_text : String) : ℚ :=
  ((exact_matches disease_keywords_long transcript_text : ℚ) /
    (max 1 disease_keywords_long.length : ℕ)) * 100

/-- One `MatchResult` tuple `(name, final, fuzzy, exact)` as appended on
line 150 of the source. -/
def scoreOne (sim : String → String → ℚ) (extracted : List String)
    (transcript_text : String) (disease_keywords_long : List String)
    (disease_name : String) : String × ℚ × ℚ × ℚ :=
  let f := avg_fuzzy sim extracted disease_keywords_long
  let e := exact_coverage disease_keywords_long transcript_text
  (disease_name, round1 (65 / 100 * f + 35 / 100 * e), round1 f, round1 e)

/-- One entry of the keyword folder: a file name and its readable content
(list of raw lines without terminators), or `none` when reading it fails. -/
structure KFile where
  fname : String
  lines : Option (List String)
deriving DecidableEq

/-- Python `str.lower` at the `String` level. -/
def lowerStr (s : String) : String := String.mk (lowerL s.toList)

/-- The model of Python `str.strip()`: drop leading and trailing whitespace. -/
def trimStr (s : String) : String :=
  String.mk
    (((s.toList.dropWhile Char.isWhitespace).reverse.dropWhile
      Char.isWhitespace).reverse)

/-- The model of line 108: keep the nonempty lines, stripped and lowercased. -/
def loadKeywords (ls : List String) : List String :=
  ls.filterMap
    (fun l => if trimStr l = "" then none else some (lowerStr (trimStr l)))

/-- The model of `file_name.replace(".txt", "")`: remove every (left-to-right,
non-overlapping) occurrence of `.txt`. -/
def replTxt : List Char → List Char
  | '.' :: 't' :: 'x' :: 't' :: cs => replTxt cs
  | c :: cs => c :: replTxt cs
  | [] => []

/-- The category name of a file (line 104). -/
def diseaseName (fname : String) : String := String.mk (replTxt fname.toList)

/-- The model of `file_name.endswith(".txt")`. -/
def endsTxt (fname : String) : Bool :=
  leadsL ['t', 'x', 't', '.'] fname.toList.reverse

/-- The per-file length filter of line 121. -/
def longKeywords (disease_keywords : List String) : List String :=
  disease_keywords.filter (fun dk => decide (3 ≤ dk.length))

/-- The loop body of `match_disease` (lines 101-150) over the folder listing:
skip files without the `.txt` convention and unreadable files, and score every
other file. -/
def rawResults (sim : String → String → ℚ) (extracted : List String)
    (transcript_text : String) (files : List KFile) :
    List (String × ℚ × ℚ × ℚ) :=
  files.filterMap (fun file =>
    if endsTxt file.fname then
      match file.lines with
      | none => none
      | some ls =>
        some (scoreOne sim extracted transcript_text
          (longKeywords (loadKeywords ls)) (diseaseName file.fname))
    else none)

/-- The comparison used on line 156: descending in the final score. -/
def byFinalDesc (a b : String × ℚ × ℚ × ℚ) : Bool := decide (b.2.1 ≤ a.2.1)

/-- The model of `match_disease` (lines 86-158): sentinel results for the
empty-token, missing-folder and no-usable-file cases, otherwise the stably
sorted score list together with its head as the best match. -/
def match_disease (sim : String → String → ℚ)
    (extracted_keywords : List String) (transcript_text : String)
    (keyword_folder : Option (List KFile)) :
    (String × ℚ) × List (String × ℚ × ℚ × ℚ) :=
  let extracted := filtered_keywords extracted_keywords
  if extracted = [] then (("NoKeywords", 0), [])
  else
    match keyword_folder with
    | none => (("KeywordFolderNotFound", 0), [])
    | some files =>
      let results := rawResults sim extracted transcript_text files
      if results = [] then (("NoKeywordFiles", 0), [])
      else
        let sorted_results := sortOrd byFinalDesc results
        ((sorted_results.headI.1, sorted_results.headI.2.1), sorted_results)

theorem leadsL_iff (n h : List Char) : leadsL n h = true ↔ ∃ r, h = n ++ r := by
  induction n generalizing h with
  | nil =>
    simp [leadsL]
  | cons a as ih =>
    cases h with
    | nil =>
      simp [leadsL]
    | cons b bs =>
      simp only [leadsL, Bool.and_eq_true, decide_eq_true_eq, ih, List.cons_append,
        List.cons.injEq]
      constructor
      · rintro ⟨rfl, r, rfl⟩
        exact ⟨r, rfl, rfl⟩
      · rintro ⟨r, rfl, rfl⟩
        exact ⟨rfl, r, rfl⟩

theorem occursIn_iff (n h : List Char) :
    occursIn n h = true ↔ ∃ l r, h = l ++ n ++ r := by
  induction h with
  | nil =>
    simp only [occursIn]
    rw [leadsL_iff]
    constructor
    · rintro ⟨r, hr⟩
      exact ⟨[], r, by simpa using hr⟩
    · rintro ⟨l, r, hr⟩
      refine ⟨r, ?_⟩
      have h0 : l ++ (n ++ r) = [] := by
        rw [← List.append_assoc]
        exact hr.symm
      exact (List.append_eq_nil.mp h0).2.symm
  | cons c cs ih =>
    simp only [occursIn, Bool.or_eq_true, ih]
    rw [leadsL_iff]
    constructor
    · rintro (⟨r, hr⟩ | ⟨l, r, hr⟩)
      · exact ⟨[], r, by simpa using hr⟩
      · exact ⟨c :: l, r, by simp [hr]⟩
    · rintro ⟨l, r, hr⟩
      cases l with
      | nil =>
        exact Or.inl ⟨r, by simpa using hr⟩
      | cons x xs =>
        right
        rw [List.cons_append, List.cons_append, List.cons.injEq] at hr
        exact ⟨xs, r, hr.2⟩

theorem insOrd_perm (le : α → α → Bool) (x : α) (l : List α) :
    (insOrd le x l).Perm (x :: l) := by
  induction l with
  | nil => simp [insOrd]
  | cons y ys ih =>
    rw [insOrd]
    by_cases h : le x y
    · rw [if_pos h]
    · rw [if_neg h]
      exact (ih.cons y).trans (List.Perm.swap x y ys)

theorem sortOrd_perm (le : α → α → Bool) (l : List α) : (sortOrd le l).Perm l := by
  induction l with
  | nil => simp [sortOrd]
  | cons x xs ih =>
    rw [sortOrd]
    exact (insOrd_perm le x (sortOrd le xs)).trans (List.Perm.cons x ih)

theorem mem_sortOrd (le : α → α → Bool) (l : List α) (a : α) :
    a ∈ sortOrd le l ↔ a ∈ l :=
  (sortOrd_perm le l).mem_iff

theorem pairwise_insOrd (le : α → α → Bool)
    (total : ∀ a b, le a b = true ∨ le b a = true)
    (htrans : ∀ a b c, le a b = true → le b c = true → le a c = true)
    (x : α) (l : List α) (h : l.Pairwise (fun a b => le a b = true)) :
    (insOrd le x l).Pairwise (fun a b => le a b = true) := by
  induction l with
  | nil => simp [insOrd]
  | cons y ys ih =>
    rw [insOrd]
    rcases List.pairwise_cons.mp h with ⟨hy, hys⟩
    by_cases hxy : le x y
    · rw [if_pos hxy]
      refine List.pairwise_cons.mpr ⟨?_, h⟩
      intro b hb
      rcases List.mem_cons.mp hb with hb | hb
      · subst hb
        exact hxy
      · exact htrans x y b hxy (hy b hb)
    · rw [if_neg hxy]
      refine List.pairwise_cons.mpr ⟨?_, ih hys⟩
      intro b hb
      rcases List.mem_cons.mp ((insOrd_perm le x ys).mem_iff.mp hb) with hb | hb
      · rw [hb]
        rcases total x y with hc | hc
        · exact absurd hc hxy
        · exact hc
      · exact hy b hb

theorem pairwise_sortOrd (le : α → α → Bool)
    (total : ∀ a b, le a b = true ∨ le b a = true)
    (htrans : ∀ a b c, le a b = true → le b c = true → le a c = true)
    (l : List α) : (sortOrd le l).Pairwise (fun a b => le a b = true) := by
  induction l with
  | nil => simp [sortOrd]
  | cons x xs ih =>
    rw [sortOrd]
    exact pairwise_insOrd le total htrans x (sortOrd le xs) ih

theorem sortOrd_eq_self (le : α → α → Bool) (l : List α)
    (h : l.Pairwise (fun a b => le a b = true)) : sortOrd le l = l := by
  induction l with
  | nil => rfl
  | cons x xs ih =>
    rcases List.pairwise_cons.mp h with ⟨hx, hxs⟩
    rw [sortOrd, ih hxs]
    cases xs with
    | nil => rfl
    | cons y ys =>
      rw [insOrd, if_pos (hx y (List.mem_cons_self y ys))]

theorem filter_insOrd_of_notp (le : α → α → Bool) (p : α → Bool) (x : α)
    (l : List α) (hx : p x = false) :
    (insOrd le x l).filter p = l.filter p := by
  induction l with
  | nil => simp [insOrd, hx]
  | cons y ys ih =>
    rw [insOrd]
    by_cases h : le x y
    · rw [if_pos h]
      simp [List.filter, hx]
    · rw [if_neg h]
      simp only [List.filter]
      cases p y <;> simp [ih]

theorem filter_insOrd_of_p (le : α → α → Bool) (p : α → Bool) (x : α)
    (l : List α) (hx : p x = true)
    (hskip : ∀ y, le x y = false → p y = false) :
    (insOrd le x l).filter p = x :: l.filter p := by
  induction l with
  | nil => simp [insOrd, hx]
  | cons y ys ih =>
    rw [insOrd]
    by_cases h : le x y
    · rw [if_pos h]
      simp [List.filter, hx]
    · rw [if_neg h]
      have hy : p y = false := hskip y (Bool.not_eq_true _ ▸ h)
      simp only [List.filter, hy, ih]

/-- Stability of the descending sort used by `match_disease`: for each score
value `s`, the entries carrying `s` appear in the sorted output in the same
order as in the input. -/
theorem sortOrd_stable_key (key : α → ℚ) (l : List α) (s : ℚ) :
    (sortOrd (fun a b => decide (key b ≤ key a)) l).filter (fun a => decide (key a = s)) =
      l.filter (fun a => decide (key a = s)) := by
  induction l with
  | nil => rfl
  | cons x xs ih =>
    rw [sortOrd]
    by_cases hx : key x = s
    · rw [filter_insOrd_of_p _ _ x _ (by simp [hx]) ?_, ih]
      · simp [hx]
      · intro y hy
        simp only [decide_eq_false_iff_not, not_le] at hy
        simp only [decide_eq_false_iff_not]
        intro hys
        rw [hx] at hy
        rw [hys] at hy
        exact lt_irrefl s hy
    · rw [filter_insOrd_of_notp _ _ x _ (by simp [hx]), ih]
      simp [hx]

theorem rawResults_eq_nil (sim : String → String → ℚ) (extracted : List String)
    (t : String) (files : List KFile)
    (h : ∀ f ∈ files, endsTxt f.fname = false ∨ f.lines = none) :
    rawResults sim extracted t files = [] := by
  rw [rawResults, List.filterMap_eq_nil_iff]
  intro file hf
  rcases h file hf with hc | hc
  · simp [hc]
  · simp [hc]

theorem mem_rawResults (sim : String → String → ℚ) (extracted : List String)
    (t : String) (files : List KFile) (x : String × ℚ × ℚ × ℚ)
    (hx : x ∈ rawResults sim extracted t files) :
    ∃ dkl dn, x = scoreOne sim extracted t dkl dn := by
  rw [rawResults] at hx
  rcases List.mem_filterMap.mp hx with ⟨file, _, hf⟩
  by_cases hT : endsTxt file.fname
  · rw [if_pos hT] at hf
    cases hl : file.lines with
    | none =>
      rw [hl] at hf
      exact absurd hf (by simp)
    | some ls =>
      rw [hl] at hf
      refine ⟨longKeywords (loadKeywords ls), diseaseName file.fname, ?_⟩
      exact (Option.some.injEq _ _ ▸ hf).symm
  · rw [if_neg hT] at hf
    exact absurd hf (by simp)

/-- C5: if, after the minimal stop-token filter and the minimum-length-3
filter of line 89, no token remains, `match_disease` returns the sentinel
`("NoKeywords", 0)` with an empty ranked list, whatever the keyword folder
is. -/
theorem C5_no_tokens_sentinel (sim : String → String → ℚ)
    (extracted_keywords : List String) (transcript_text : String)
    (keyword_folder : Option (List KFile))
    (h : filtered_keywords extracted_keywords = []) :
    match_disease sim extracted_keywords transcript_text keyword_folder =
      (("NoKeywords", 0), []) := by
  simp [match_disease, h]

/-- C5 witness: on the all-stop-word token list `["the", "it"]` the filter
leaves nothing and the sentinel is returned, with a populated folder. -/
theorem C5_no_tokens_sentinel_witness :
    filtered_keywords ["the", "it"] = [] ∧
      match_disease (fun _ _ => 0) ["the", "it"] "the a it is"
        (some [⟨"flu.txt", some ["fever"]⟩]) = (("NoKeywords", 0), []) :=
  ⟨by decide, C5_no_tokens_sentinel _ _ _ _ (by decide)⟩

/-- C6: when tokens survive the filter but the keyword folder is missing,
`match_disease` returns the sentinel `("KeywordFolderNotFound", 0)` with an
empty list (and, being a total function, raises nothing). -/
theorem C6_missing_folder_sentinel (sim : String → String → ℚ)
    (extracted_keywords : List String) (transcript_text : String)
    (h : filtered_keywords extracted_keywords ≠ []) :
    match_disease sim extracted_keywords transcript_text none =
      (("KeywordFolderNotFound", 0), []) := by
  simp [match_disease, h]

/-- C6 witness at the token list `["fever"]`. -/
theorem C6_missing_folder_sentinel_witness :
    filtered_keywords ["fever"] ≠ [] ∧
      match_disease (fun _ _ => 0) ["fever"] "i have fever" none =
        (("KeywordFolderNotFound", 0), []) :=
  ⟨by decide, C6_missing_folder_sentinel _ _ _ (by decide)⟩

/-- C7: when tokens survive the filter and the folder exists but every entry
is either not a `.txt` file or unreadable, no category list is usable and
`match_disease` returns the sentinel `("NoKeywordFiles", 0)` with an empty
list. -/
theorem C7_no_usable_files_sentinel (sim : String → String → ℚ)
    (extracted_keywords : List String) (transcript_text : String)
    (files : List KFile)
    (h : filtered_keywords extracted_keywords ≠ [])
    (hfiles : ∀ f ∈ files, endsTxt f.fname = false ∨ f.lines = none) :
    match_disease sim extracted_keywords transcript_text (some files) =
      (("NoKeywordFiles", 0), []) := by
  have hr := rawResults_eq_nil sim (filtered_keywords extracted_keywords)
    transcript_text files hfiles
  simp [match_disease, h, hr]

/-- C7 witness: a folder holding a non-`.txt` file and an unreadable `.txt`
file yields the sentinel. -/
theorem C7_no_usable_files_sentinel_witness :
    filtered_keywords ["fever"] ≠ [] ∧
      match_disease (fun _ _ => 0) ["fever"] "i have fever"
        (some [⟨"notes.md", some ["fever"]⟩, ⟨"flu.txt", none⟩]) =
        (("NoKeywordFiles", 0), []) :=
  ⟨by decide,
    C7_no_usable_files_sentinel _ _ _ _ (by decide) (by decide)⟩

theorem fuzzyBest_aux_ge_init (sim : String → String → ℚ) (dk : String)
    (l : List String) : ∀ b : ℚ,
    b ≤ l.foldl (fun best ek => if sim ek dk > best then sim ek dk else best) b := by
  induction l with
  | nil =>
    intro b
    simp
  | cons e l ih =>
    intro b
    rw [List.foldl_cons]
    refine le_trans ?_ (ih _)
    by_cases h : sim e dk > b
    · rw [if_pos h]
      exact le_of_lt h
    · rw [if_neg h]

theorem fuzzyBest_aux_le (sim : String → String → ℚ) (dk : String) (M : ℚ)
    (hsim : ∀ ek, sim ek dk ≤ M) (l : List String) : ∀ b : ℚ, b ≤ M →
    l.foldl (fun best ek => if sim ek dk > best then sim ek dk else best) b ≤ M := by
  induction l with
  | nil =>
    intro b hb
    simpa using hb
  | cons e l ih =>
    intro b hb
    rw [List.foldl_cons]
    refine ih _ ?_
    by_cases h : sim e dk > b
    · rw [if_pos h]
      exact hsim e
    · rw [if_neg h]
      exact hb

theorem fuzzyBest_aux_ub (sim : String → String → ℚ) (dk : String)
    (l : List String) : ∀ b : ℚ, ∀ ek ∈ l,
    sim ek dk ≤ l.foldl (fun best ek => if sim ek dk > best then sim ek dk else best) b := by
  induction l with
  | nil =>
    intro b ek hek
    exact absurd hek (List.not_mem_nil ek)
  | cons e l ih =>
    intro b ek hek
    rw [List.foldl_cons]
    rcases List.mem_cons.mp hek with hek | hek
    · subst hek
      refine le_trans ?_ (fuzzyBest_aux_ge_init sim dk l _)
      by_cases h : sim ek dk > b
      · rw [if_pos h]
      · rw [if_neg h]
        exact le_of_not_lt h
    · exact ih _ ek hek

theorem fuzzyBest_aux_mem (sim : String → String → ℚ) (dk : String)
    (l : List String) : ∀ b : ℚ,
    l.foldl (fun best ek => if sim ek dk > best then sim ek dk else best) b = b ∨
      ∃ ek ∈ l, l.foldl (fun best ek => if sim ek dk > best then sim ek dk else best) b =
        sim ek dk := by
  induction l with
  | nil =>
    intro b
    simp
  | cons e l ih =>
    intro b
    rw [List.foldl_cons]
    by_cases h : sim e dk > b
    · rw [if_pos h]
      rcases ih (sim e dk) with hc | ⟨ek, hek, hc⟩
      · exact Or.inr ⟨e, List.mem_cons_self e l, hc⟩
      · exact Or.inr ⟨ek, List.mem_cons_of_mem e hek, hc⟩
    · rw [if_neg h]
      rcases ih b with hc | ⟨ek, hek, hc⟩
      · exact Or.inl hc
      · exact Or.inr ⟨ek, List.mem_cons_of_mem e hek, hc⟩

theorem fuzzyBest_nonneg (sim : String → String → ℚ) (extracted : List String)
    (dk : String) : 0 ≤ fuzzyBest sim extracted dk :=
  fuzzyBest_aux_ge_init sim dk extracted 0

theorem fuzzyBest_le_100 (sim : String → String → ℚ) (extracted : List String)
    (dk : String) (hsim : ∀ a b, sim a b ≤ 100) :
    fuzzyBest sim extracted dk ≤ 100 :=
  fuzzyBest_aux_le sim dk 100 (fun ek => hsim ek dk) extracted 0 (by norm_num)

theorem fuzzyBest_ub (sim : String → String → ℚ) (extracted : List String)
    (dk : String) : ∀ ek ∈ extracted, sim ek dk ≤ fuzzyBest sim extracted dk :=
  fuzzyBest_aux_ub sim dk extracted 0

/-- With a nonnegative metric and at least one transcript token, the
0-initialised strict-improvement fold is attained at some token, i.e. it
really computes the maximum similarity. -/
theorem fuzzyBest_attained (sim : String → String → ℚ) (extracted : List String)
    (dk : String) (hsim0 : ∀ a b, 0 ≤ sim a b) (hne : extracted ≠ []) :
    ∃ ek ∈ extracted, fuzzyBest sim extracted dk = sim ek dk := by
  rcases fuzzyBest_aux_mem sim dk extracted 0 with hc | hc
  · cases extracted with
    | nil => exact absurd rfl hne
    | cons e l =>
      refine ⟨e, List.mem_cons_self e l, le_antisymm ?_ ?_⟩
      · rw [fuzzyBest, hc]
        exact hsim0 e dk
      · rw [fuzzyBest]
        exact fuzzyBest_aux_ub sim dk (e :: l) 0 e (List.mem_cons_self e l)
  · exact hc

theorem avg_fuzzy_nonneg (sim : String → String → ℚ) (extracted : List String)
    (dkl : List String) : 0 ≤ avg_fuzzy sim extracted dkl := by
  rw [avg_fuzzy]
  by_cases h : dkl = []
  · rw [if_pos h]
  · rw [if_neg h]
    apply div_nonneg
    · apply List.sum_nonneg
      intro x hx
      rcases List.mem_map.mp hx with ⟨dk, _, rfl⟩
      exact fuzzyBest_nonneg sim extracted dk
    · exact_mod_cast Nat.zero_le _

theorem avg_fuzzy_le_100 (sim : String → String → ℚ) (extracted : List String)
    (dkl : List String) (hsim : ∀ a b, sim a b ≤ 100) :
    avg_fuzzy sim extracted dkl ≤ 100 := by
  rw [avg_fuzzy]
  by_cases h : dkl = []
  · rw [if_pos h]
    norm_num
  · rw [if_neg h]
    have hlen : 0 < (dkl.length : ℚ) := by
      have : 0 < dkl.length := List.length_pos.mpr h
      exact_mod_cast this
    rw [div_le_iff₀ hlen]
    have hsum : (dkl.map (fuzzyBest sim extracted)).sum ≤
        (dkl.map (fuzzyBest sim extracted)).length • (100 : ℚ) := by
      apply List.sum_le_card_nsmul
      intro x hx
      rcases List.mem_map.mp hx with ⟨dk, _, rfl⟩
      exact fuzzyBest_le_100 sim extracted dk hsim
    rw [List.length_map] at hsum
    calc (dkl.map (fuzzyBest sim extracted)).sum ≤ dkl.length • (100 : ℚ) := hsum
      _ = 100 * dkl.length := by
          rw [nsmul_eq_mul]
          ring

theorem exact_matches_le (dkl : List String) (t : String) :
    exact_matches dkl t ≤ dkl.length :=
  List.length_filter_le _ dkl

theorem exact_coverage_nonneg (dkl : List String) (t : String) :
    0 ≤ exact_coverage dkl t := by
  rw [exact_coverage]
  positivity

theorem exact_coverage_le_100 (dkl : List String) (t : String) :
    exact_coverage dkl t ≤ 100 := by
  rw [exact_coverage]
  have h1 : (exact_matches dkl t : ℚ) / (max 1 dkl.length : ℕ) ≤ 1 := by
    rw [div_le_one (by positivity)]
    have h2 : exact_matches dkl t ≤ max 1 dkl.length :=
      le_trans (exact_matches_le dkl t) (le_max_right 1 dkl.length)
    exact_mod_cast h2
  nlinarith

theorem round1_nonneg (q : ℚ) (h : 0 ≤ q) : 0 ≤ round1 q := by
  rw [round1, round_eq]
  have h1 : (0:ℤ) ≤ ⌊10 * q + 1/2⌋ := by
    apply Int.le_floor.mpr
    push_cast
    linarith
  have h2 : (0:ℚ) ≤ (⌊10 * q + 1/2⌋ : ℤ) := by
    exact_mod_cast h1
  positivity

theorem round1_le_100 (q : ℚ) (h : q ≤ 100) : round1 q ≤ 100 := by
  rw [round1, round_eq]
  have h1 : ⌊10 * q + 1/2⌋ ≤ ⌊(2001 : ℚ)/2⌋ := by
    apply Int.floor_le_floor
    linarith
  have h2 : ⌊(2001 : ℚ)/2⌋ = 1000 := by
    norm_num
  rw [h2] at h1
  have h3 : ((⌊10 * q + 1/2⌋ : ℤ) : ℚ) ≤ 1000 := by
    exact_mod_cast h1
  linarith

theorem mem_match_snd (sim : String → String → ℚ) (ek : List String)
    (t : String) (folder : Option (List KFile)) (x : String × ℚ × ℚ × ℚ)
    (hx : x ∈ (match_disease sim ek t folder).2) :
    ∃ files, folder = some files ∧
      x ∈ rawResults sim (filtered_keywords ek) t files := by
  by_cases hfk : filtered_keywords ek = []
  · simp [match_disease, hfk] at hx
  · cases folder with
    | none => simp [match_disease, hfk] at hx
    | some files =>
      refine ⟨files, rfl, ?_⟩
      by_cases hr : rawResults sim (filtered_keywords ek) t files = []
      · simp [match_disease, hfk, hr] at hx
      · simp only [match_disease, if_neg hfk, if_neg hr] at hx
        exact (mem_sortOrd _ _ _).mp hx

/-- C1 (amended): every emitted `MatchResult` has its three numbers in
`[0, 100]`, and its final score is the rounding of
`0.65 * f + 0.35 * e` where `f` and `e` are the category's unrounded
sub-scores — the reported fuzzy and exact entries being `round1 f` and
`round1 e`. (Recomputing the final score from the reported, already rounded,
sub-scores can differ: see the counterexample.) -/
theorem C1_bounds_and_weighting (sim : String → String → ℚ)
    (hsim : ∀ a b, 0 ≤ sim a b ∧ sim a b ≤ 100) (ek : List String)
    (t : String) (folder : Option (List KFile)) :
    ∀ x ∈ (match_disease sim ek t folder).2,
      (0 ≤ x.2.2.1 ∧ x.2.2.1 ≤ 100) ∧ (0 ≤ x.2.2.2 ∧ x.2.2.2 ≤ 100) ∧
      (0 ≤ x.2.1 ∧ x.2.1 ≤ 100) ∧
      ∃ f e, 0 ≤ f ∧ f ≤ 100 ∧ 0 ≤ e ∧ e ≤ 100 ∧
        x.2.2.1 = round1 f ∧ x.2.2.2 = round1 e ∧
        x.2.1 = round1 (65 / 100 * f + 35 / 100 * e) := by
  intro x hx
  rcases mem_match_snd sim ek t folder x hx with ⟨files, _, hxr⟩
  rcases mem_rawResults sim (filtered_keywords ek) t files x hxr with ⟨dkl, dn, rfl⟩
  have hf0 : 0 ≤ avg_fuzzy sim (filtered_keywords ek) dkl :=
    avg_fuzzy_nonneg _ _ _
  have hf1 : avg_fuzzy sim (filtered_keywords ek) dkl ≤ 100 :=
    avg_fuzzy_le_100 _ _ _ (fun a b => (hsim a b).2)
  have he0 : 0 ≤ exact_coverage dkl t := exact_coverage_nonneg _ _
  have he1 : exact_coverage dkl t ≤ 100 := exact_coverage_le_100 _ _
  refine ⟨⟨round1_nonneg _ hf0, round1_le_100 _ hf1⟩,
    ⟨round1_nonneg _ he0, round1_le_100 _ he1⟩,
    ⟨round1_nonneg _ (by linarith), round1_le_100 _ (by linarith)⟩,
    avg_fuzzy sim (filtered_keywords ek) dkl, exact_coverage dkl t,
    hf0, hf1, he0, he1, rfl, rfl, rfl⟩

/-- C1 witness: concrete run with one category; its `MatchResult` is
`("flu", 35, 0, 100)` and the theorem instantiates at it. -/
theorem C1_bounds_and_weighting_witness :
    (match_disease (fun _ _ => 0) ["fever"] "i have fever"
        (some [⟨"flu.txt", some ["fever"]⟩])).2 = [("flu", 35, 0, 100)] ∧
      ((0 ≤ (("flu", (35 : ℚ), (0 : ℚ), (100 : ℚ))).2.2.1 ∧
          (("flu", (35 : ℚ), (0 : ℚ), (100 : ℚ))).2.2.1 ≤ 100) ∧
        (0 ≤ (("flu", (35 : ℚ), (0 : ℚ), (100 : ℚ))).2.2.2 ∧
          (("flu", (35 : ℚ), (0 : ℚ), (100 : ℚ))).2.2.2 ≤ 100) ∧
        (0 ≤ (("flu", (35 : ℚ), (0 : ℚ), (100 : ℚ))).2.1 ∧
          (("flu", (35 : ℚ), (0 : ℚ), (100 : ℚ))).2.1 ≤ 100) ∧
        ∃ f e, 0 ≤ f ∧ f ≤ 100 ∧ 0 ≤ e ∧ e ≤ 100 ∧
          (("flu", (35 : ℚ), (0 : ℚ), (100 : ℚ))).2.2.1 = round1 f ∧
          (("flu", (35 : ℚ), (0 : ℚ), (100 : ℚ))).2.2.2 = round1 e ∧
          (("flu", (35 : ℚ), (0 : ℚ), (100 : ℚ))).2.1 =
            round1 (65 / 100 * f + 35 / 100 * e)) := by
  have hev : match_disease (fun _ _ => 0) ["fever"] "i have fever"
      (some [⟨"flu.txt", some ["fever"]⟩]) = (("flu", 35), [("flu", 35, 0, 100)]) := by
    have h0 : filtered_keywords ["fever"] = ["fever"] := by decide
    have h2 : loadKeywords ["fever"] = ["fever"] := by decide
    have h3 : longKeywords ["fever"] = ["fever"] := by decide
    have h4 : endsTxt "flu.txt" = true := by decide
    have h5 : diseaseName "flu.txt" = "flu" := by decide
    have h7 : exact_matches ["fever"] "i have fever" = 1 := by decide
    have h8 : exact_coverage ["fever"] "i have fever" = 100 := by
      rw [exact_coverage, h7]
      norm_num
    have h9 : avg_fuzzy (fun _ _ => (0 : ℚ)) ["fever"] ["fever"] = 0 := by
      rw [avg_fuzzy]
      norm_num [fuzzyBest]
    have h10 : round1 0 = 0 := by simp [round1]
    have h11 : round1 100 = 100 := by
      rw [round1, round_eq]
      norm_num
    have h12 : round1 (65 / 100 * 0 + 35 / 100 * 100) = 35 := by
      rw [round1, round_eq]
      norm_num
    have h13 : round1 35 = 35 := by
      rw [round1, round_eq]
      norm_num
    simp [match_disease, h0, rawResults, h2, h3, h4, h5, scoreOne, h8, h9, h10, h11,
      h12, h13, sortOrd, insOrd]
  refine ⟨by rw [hev], ?_⟩
  exact C1_bounds_and_weighting (fun _ _ => 0)
    (fun a b => by norm_num) ["fever"] "i have fever"
    (some [⟨"flu.txt", some ["fever"]⟩]) ("flu", 35, 0, 100)
    (by rw [hev]; exact List.mem_singleton_self _)

/-- C1 counterexample: with a similarity value of `50.07` (admissible for the
0-100 metric interface), the emitted result is `("d", 32.5, 50.1, 0)`:
the reported final score `32.5` is the rounding of `0.65 * 50.07`, but
recomputing `round1(0.65 * fuzzy + 0.35 * exact)` from the reported
(rounded) sub-scores gives `32.6`. -/
theorem C1_reported_subscore_recombination_fails :
    (match_disease (fun _ _ => 5007 / 100) ["abc"] "xyz"
        (some [⟨"d.txt", some ["abcd"]⟩])).2 = [("d", 65 / 2, 501 / 10, 0)] ∧
      round1 (65 / 100 * (501 / 10) + 35 / 100 * 0) = 163 / 5 ∧
      (65 / 2 : ℚ) ≠ 163 / 5 := by
  refine ⟨?_, ?_, by norm_num⟩
  · have h0 : filtered_keywords ["abc"] = ["abc"] := by decide
    have h2 : loadKeywords ["abcd"] = ["abcd"] := by decide
    have h3 : longKeywords ["abcd"] = ["abcd"] := by decide
    have h4 : endsTxt "d.txt" = true := by decide
    have h5 : diseaseName "d.txt" = "d" := by decide
    have h7 : exact_matches ["abcd"] "xyz" = 0 := by decide
    have h8 : exact_coverage ["abcd"] "xyz" = 0 := by
      rw [exact_coverage, h7]
      norm_num
    have h9 : avg_fuzzy (fun _ _ => (5007 / 100 : ℚ)) ["abc"] ["abcd"] = 5007 / 100 := by
      rw [avg_fuzzy]
      norm_num [fuzzyBest]
    have h12 : round1 (65 / 100 * (5007 / 100)) = 65 / 2 := by
      rw [round1, round_eq]
      norm_num
    have h13 : round1 (5007 / 100) = 501 / 10 := by
      rw [round1, round_eq]
      norm_num
    have h10 : round1 0 = 0 := by simp [round1]
    simp [match_disease, h0, rawResults, h2, h3, h4, h5, scoreOne, h8, h9, h10, h12,
      h13, sortOrd, insOrd]
  · rw [round1, round_eq]
    norm_num

/-- C2: with a nonnegative metric and a nonempty filtered token list, the
fuzzy sub-score of a category is 0 when no keyword phrase survives the
length-3 filter, and otherwise it is the sum over the surviving phrases of
the maximum similarity against the transcript tokens, divided by the number
of surviving phrases (the per-phrase fold really is that maximum: it is an
upper bound of, and attained at, the token similarities). -/
theorem C2_fuzzy_subscore (sim : String → String → ℚ) (extracted : List String)
    (dkl : List String) (hsim0 : ∀ a b, 0 ≤ sim a b) (hne : extracted ≠ []) :
    (dkl = [] → avg_fuzzy sim extracted dkl = 0) ∧
    (dkl ≠ [] →
      avg_fuzzy sim extracted dkl =
        (dkl.map (fuzzyBest sim extracted)).sum / dkl.length ∧
      ∀ dk ∈ dkl,
        (∃ ek ∈ extracted, fuzzyBest sim extracted dk = sim ek dk) ∧
        ∀ ek ∈ extracted, sim ek dk ≤ fuzzyBest sim extracted dk) := by
  constructor
  · intro h
    rw [avg_fuzzy, if_pos h]
  · intro h
    refine ⟨by rw [avg_fuzzy, if_neg h], ?_⟩
    intro dk _
    exact ⟨fuzzyBest_attained sim extracted dk hsim0 hne, fuzzyBest_ub sim extracted dk⟩

/-- C2 witness at the constant metric `7`, token list `["abc"]` and keyword
list `["abcd"]`. -/
theorem C2_fuzzy_subscore_witness :
    (["abcd"] = ([] : List String) →
        avg_fuzzy (fun _ _ => 7) ["abc"] ["abcd"] = 0) ∧
      (["abcd"] ≠ ([] : List String) →
        avg_fuzzy (fun _ _ => 7) ["abc"] ["abcd"] =
          ((["abcd"].map (fuzzyBest (fun _ _ => 7) ["abc"])).sum / ([("abcd" : String)].length)) ∧
        ∀ dk ∈ (["abcd"] : List String),
          (∃ ek ∈ (["abc"] : List String),
            fuzzyBest (fun _ _ => 7) ["abc"] dk = (fun (_ _ : String) => (7 : ℚ)) ek dk) ∧
          ∀ ek ∈ (["abc"] : List String),
            (fun (_ _ : String) => (7 : ℚ)) ek dk ≤ fuzzyBest (fun _ _ => 7) ["abc"] dk) :=
  C2_fuzzy_subscore (fun _ _ => 7) ["abc"] ["abcd"]
    (fun a b => by norm_num) (by decide)

/-- C3 counterexample: the exact-coverage test is NOT insensitive to the
letter case of the transcript text. The phrase `fever` occurs in
`"I have Fever"` up to case, yet the emitted exact sub-score is 0; with
the all-lowercase transcript it is 100. -/
theorem C3_not_case_insensitive :
    exact_matches ["fever"] "I have Fever" = 0 ∧
      exact_matches ["fever"] "i have fever" = 1 ∧
      (match_disease (fun _ _ => 0) ["fever"] "I have Fever"
        (some [⟨"flu.txt", some ["fever"]⟩])).2 = [("flu", 0, 0, 0)] ∧
      (match_disease (fun _ _ => 0) ["fever"] "i have fever"
        (some [⟨"flu.txt", some ["fever"]⟩])).2 = [("flu", 35, 0, 100)] := by
  have h0 : filtered_keywords ["fever"] = ["fever"] := by decide
  have h2 : loadKeywords ["fever"] = ["fever"] := by decide
  have h3 : longKeywords ["fever"] = ["fever"] := by decide
  have h4 : endsTxt "flu.txt" = true := by decide
  have h5 : diseaseName "flu.txt" = "flu" := by decide
  have h10 : round1 0 = 0 := by simp [round1]
  refine ⟨by decide, by decide, ?_, ?_⟩
  · have h7 : exact_matches ["fever"] "I have Fever" = 0 := by decide
    have h8 : exact_coverage ["fever"] "I have Fever" = 0 := by
      rw [exact_coverage, h7]
      norm_num
    have h9 : avg_fuzzy (fun _ _ => (0 : ℚ)) ["fever"] ["fever"] = 0 := by
      rw [avg_fuzzy]
      norm_num [fuzzyBest]
    simp [match_disease, h0, rawResults, h2, h3, h4, h5, scoreOne, h8, h9, h10,
      sortOrd, insOrd]
  · have h7 : exact_matches ["fever"] "i have fever" = 1 := by decide
    have h8 : exact_coverage ["fever"] "i have fever" = 100 := by
      rw [exact_coverage, h7]
      norm_num
    have h9 : avg_fuzzy (fun _ _ => (0 : ℚ)) ["fever"] ["fever"] = 0 := by
      rw [avg_fuzzy]
      norm_num [fuzzyBest]
    have h11 : round1 100 = 100 := by
      rw [round1, round_eq]
      norm_num
    have h12 : round1 (65 / 100 * 0 + 35 / 100 * 100) = 35 := by
      rw [round1, round_eq]
      norm_num
    have h13 : round1 35 = 35 := by
      rw [round1, round_eq]
      norm_num
    simp [match_disease, h0, rawResults, h2, h3, h4, h5, scoreOne, h8, h9, h10, h11,
      h12, h13, sortOrd, insOrd]

/-- C3 (amended): a keyword phrase counts as an exact match iff it occurs
verbatim — as a literal, case-SENSITIVE substring — anywhere in the raw
transcript text (the phrases themselves having been lowercased at load time),
and the exact sub-score is `matches / max(1, |K|) * 100`. -/
theorem C3_exact_verbatim_substring (dkl : List String) (t : String) :
    exact_coverage dkl t =
      (((dkl.filter (fun dk => occursIn dk.toList t.toList)).length : ℚ) /
        (max 1 dkl.length : ℕ)) * 100 ∧
    ∀ dk : String,
      occursIn dk.toList t.toList = true ↔
        ∃ l r, t.toList = l ++ dk.toList ++ r := by
  exact ⟨by rw [exact_coverage, exact_matches], fun dk => occursIn_iff _ _⟩

theorem scoreOne_nil (sim : String → String → ℚ) (extracted : List String)
    (t : String) (dn : String) :
    scoreOne sim extracted t [] dn = (dn, 0, 0, 0) := by
  simp [scoreOne, avg_fuzzy, exact_coverage, exact_matches, round1]

theorem match_snd_eq_sortOrd (sim : String → String → ℚ) (ek : List String)
    (t : String) (files : List KFile)
    (hx : filtered_keywords ek ≠ [])
    (hr : rawResults sim (filtered_keywords ek) t files ≠ []) :
    (match_disease sim ek t (some files)).2 =
      sortOrd byFinalDesc (rawResults sim (filtered_keywords ek) t files) ∧
    (match_disease sim ek t (some files)).1 =
      ((sortOrd byFinalDesc (rawResults sim (filtered_keywords ek) t files)).headI.1,
       (sortOrd byFinalDesc (rawResults sim (filtered_keywords ek) t files)).headI.2.1) := by
  constructor
  · simp only [match_disease, if_neg hx, if_neg hr]
  · simp only [match_disease, if_neg hx, if_neg hr]

/-- C10: a `.txt` category file that reads fine but yields no keyword phrase
of length at least 3 (e.g. an empty file) is still scored: a result with
fuzzy, exact and final all equal to 0 is emitted for it, the ranked list is
in particular nonempty (so this file alone never triggers the
`NoKeywordFiles` sentinel), and the guarded division makes the empty-list
exact coverage 0 rather than an error. -/
theorem C10_empty_keyword_list_scored_zero (sim : String → String → ℚ)
    (ek : List String) (t : String) (files : List KFile) (file : KFile)
    (ls : List String)
    (hx : filtered_keywords ek ≠ []) (hmem : file ∈ files)
    (hT : endsTxt file.fname = true) (hl : file.lines = some ls)
    (hk : longKeywords (loadKeywords ls) = []) :
    (diseaseName file.fname, (0 : ℚ), (0 : ℚ), (0 : ℚ)) ∈
      (match_disease sim ek t (some files)).2 ∧
    (match_disease sim ek t (some files)).2 ≠ [] ∧
    exact_coverage [] t = 0 := by
  have hmemraw : (diseaseName file.fname, (0 : ℚ), (0 : ℚ), (0 : ℚ)) ∈
      rawResults sim (filtered_keywords ek) t files := by
    rw [rawResults]
    apply List.mem_filterMap.mpr
    refine ⟨file, hmem, ?_⟩
    rw [if_pos hT, hl]
    show some (scoreOne sim (filtered_keywords ek) t
      (longKeywords (loadKeywords ls)) (diseaseName file.fname)) = _
    rw [hk, scoreOne_nil]
  have hr : rawResults sim (filtered_keywords ek) t files ≠ [] := by
    intro hnil
    rw [hnil] at hmemraw
    exact List.not_mem_nil _ hmemraw
  have heq := (match_snd_eq_sortOrd sim ek t files hx hr).1
  refine ⟨?_, ?_, ?_⟩
  · rw [heq]
    exact (mem_sortOrd _ _ _).mpr hmemraw
  · rw [heq]
    intro hnil
    have := (mem_sortOrd byFinalDesc
      (rawResults sim (filtered_keywords ek) t files) _).mpr hmemraw
    rw [hnil] at this
    exact List.not_mem_nil _ this
  · simp [exact_coverage, exact_matches]

/-- C10 witness: a folder with one empty `.txt` file scores it `(0, 0, 0)`. -/
theorem C10_empty_keyword_list_scored_zero_witness :
    (diseaseName "empty.txt", (0 : ℚ), (0 : ℚ), (0 : ℚ)) ∈
      (match_disease (fun _ _ => 0) ["fever"] "i have fever"
        (some [⟨"empty.txt", some []⟩])).2 ∧
    (match_disease (fun _ _ => 0) ["fever"] "i have fever"
      (some [⟨"empty.txt", some []⟩])).2 ≠ [] ∧
    exact_coverage [] "i have fever" = 0 :=
  C10_empty_keyword_list_scored_zero (fun _ _ => 0) ["fever"] "i have fever"
    [⟨"empty.txt", some []⟩] ⟨"empty.txt", some []⟩ []
    (by decide) (List.mem_singleton_self _) (by decide) rfl (by decide)

theorem byFinalDesc_total (a b : String × ℚ × ℚ × ℚ) :
    byFinalDesc a b = true ∨ byFinalDesc b a = true := by
  rw [byFinalDesc, byFinalDesc]
  rcases le_total b.2.1 a.2.1 with h | h
  · exact Or.inl (by simpa using h)
  · exact Or.inr (by simpa using h)

theorem byFinalDesc_trans (a b c : String × ℚ × ℚ × ℚ)
    (hab : byFinalDesc a b = true) (hbc : byFinalDesc b c = true) :
    byFinalDesc a c = true := by
  rw [byFinalDesc] at hab hbc ⊢
  simp only [decide_eq_true_eq] at hab hbc ⊢
  exact le_trans hbc hab

theorem sortOrd_stable_byFinal (l : List (String × ℚ × ℚ × ℚ)) (s : ℚ) :
    (sortOrd byFinalDesc l).filter (fun a => decide (a.2.1 = s)) =
      l.filter (fun a => decide (a.2.1 = s)) :=
  sortOrd_stable_key (fun x : String × ℚ × ℚ × ℚ => x.2.1) l s

/-- C4: whenever `match_disease` returns a nonempty ranked list, that list is
sorted non-increasingly in the final score, entries with equal final scores
keep the enumeration order of the category files (stability, phrased as:
filtering the output to any fixed final score gives exactly the filtering of
the unsorted per-file result list), the list is nonempty, and the returned
best match is the (name, final score) pair of the head of the ranked list. -/
theorem C4_ranking (sim : String → String → ℚ) (ek : List String) (t : String)
    (files : List KFile)
    (hx : filtered_keywords ek ≠ [])
    (hr : rawResults sim (filtered_keywords ek) t files ≠ []) :
    ((match_disease sim ek t (some files)).2).Pairwise
      (fun a b => b.2.1 ≤ a.2.1) ∧
    (∀ s : ℚ, ((match_disease sim ek t (some files)).2).filter
        (fun a => decide (a.2.1 = s)) =
      (rawResults sim (filtered_keywords ek) t files).filter
        (fun a => decide (a.2.1 = s))) ∧
    (match_disease sim ek t (some files)).2 ≠ [] ∧
    (match_disease sim ek t (some files)).1 =
      (((match_disease sim ek t (some files)).2).headI.1,
       ((match_disease sim ek t (some files)).2).headI.2.1) := by
  rcases match_snd_eq_sortOrd sim ek t files hx hr with ⟨h2, h1⟩
  refine ⟨?_, ?_, ?_, ?_⟩
  · rw [h2]
    have hp := pairwise_sortOrd byFinalDesc byFinalDesc_total byFinalDesc_trans
      (rawResults sim (filtered_keywords ek) t files)
    refine hp.imp ?_
    intro a b hab
    rw [byFinalDesc] at hab
    simpa using hab
  · intro s
    rw [h2]
    exact sortOrd_stable_byFinal _ s
  · rw [h2]
    intro hnil
    have hperm := sortOrd_perm byFinalDesc (rawResults sim (filtered_keywords ek) t files)
    rw [hnil] at hperm
    exact hr (hperm.nil_eq).symm
  · rw [h1, h2]

/-- C4 witness: two categories tie at final score 35; the ranked list keeps
them in file enumeration order and the best match is the head pair. -/
theorem C4_ranking_witness :
    ((match_disease (fun _ _ => 0) ["fever"] "i have fever"
        (some [⟨"a.txt", some ["fever"]⟩, ⟨"b.txt", some ["fever"]⟩])).2).Pairwise
      (fun a b => b.2.1 ≤ a.2.1) ∧
    (∀ s : ℚ, ((match_disease (fun _ _ => 0) ["fever"] "i have fever"
        (some [⟨"a.txt", some ["fever"]⟩, ⟨"b.txt", some ["fever"]⟩])).2).filter
        (fun a => decide (a.2.1 = s)) =
      (rawResults (fun _ _ => 0) (filtered_keywords ["fever"]) "i have fever"
        [⟨"a.txt", some ["fever"]⟩, ⟨"b.txt", some ["fever"]⟩]).filter
        (fun a => decide (a.2.1 = s))) ∧
    (match_disease (fun _ _ => 0) ["fever"] "i have fever"
      (some [⟨"a.txt", some ["fever"]⟩, ⟨"b.txt", some ["fever"]⟩])).2 ≠ [] ∧
    (match_disease (fun _ _ => 0) ["fever"] "i have fever"
      (some [⟨"a.txt", some ["fever"]⟩, ⟨"b.txt", some ["fever"]⟩])).1 =
      (((match_disease (fun _ _ => 0) ["fever"] "i have fever"
          (some [⟨"a.txt", some ["fever"]⟩, ⟨"b.txt", some ["fever"]⟩])).2).headI.1,
       ((match_disease (fun _ _ => 0) ["fever"] "i have fever"
          (some [⟨"a.txt", some ["fever"]⟩, ⟨"b.txt", some ["fever"]⟩])).2).headI.2.1) := by
  apply C4_ranking (fun _ _ => 0) ["fever"] "i have fever"
    [⟨"a.txt", some ["fever"]⟩, ⟨"b.txt", some ["fever"]⟩] (by decide)
  have ha : endsTxt "a.txt" = true := by decide
  have hb : endsTxt "b.txt" = true := by decide
  have h0 : filtered_keywords ["fever"] = ["fever"] := by decide
  rw [h0, rawResults]
  simp only [List.filterMap_cons, ha, hb, if_pos]
  simp

theorem lexLe_total (as : List Char) : ∀ bs, lexLe as bs = true ∨ lexLe bs as = true := by
  induction as with
  | nil =>
    intro bs
    exact Or.inl rfl
  | cons a as ih =>
    intro bs
    cases bs with
    | nil => exact Or.inr rfl
    | cons b bs =>
      by_cases hab : a = b
      · subst hab
        rw [lexLe, lexLe, if_pos rfl, if_pos rfl]
        exact ih bs
      · rw [lexLe, lexLe, if_neg hab, if_neg (fun h => hab h.symm)]
        rcases lt_trichotomy a b with h | h | h
        · exact Or.inl (by simpa using h)
        · exact absurd h hab
        · exact Or.inr (by simpa using h)

theorem lexLe_trans (as : List Char) : ∀ bs cs, lexLe as bs = true →
    lexLe bs cs = true → lexLe as cs = true := by
  induction as with
  | nil =>
    intro bs cs _ _
    rfl
  | cons a as ih =>
    intro bs cs hab hbc
    cases bs with
    | nil => exact absurd hab (by rw [lexLe]; simp)
    | cons b bs =>
      cases cs with
      | nil => exact absurd hbc (by rw [lexLe]; simp)
      | cons c cs =>
        rw [lexLe] at hab hbc ⊢
        by_cases h1 : a = b
        · subst h1
          rw [if_pos rfl] at hab
          by_cases h2 : a = c
          · subst h2
            rw [if_pos rfl] at hbc ⊢
            exact ih bs cs hab hbc
          · rw [if_neg h2] at hbc ⊢
            exact hbc
        · rw [if_neg h1] at hab
          have hlt1 : a < b := by simpa using hab
          by_cases h2 : b = c
          · subst h2
            rw [if_neg h1]
            simpa using hlt1
          · rw [if_neg h2] at hbc
            have hlt2 : b < c := by simpa using hbc
            have hlt : a < c := lt_trans hlt1 hlt2
            rw [if_neg (ne_of_lt hlt)]
            simpa using hlt

theorem strLe_total (a b : String) : strLe a b = true ∨ strLe b a = true :=
  lexLe_total a.toList b.toList

theorem strLe_trans (a b c : String) (h1 : strLe a b = true)
    (h2 : strLe b c = true) : strLe a c = true :=
  lexLe_trans a.toList b.toList c.toList h1 h2

/-- Membership in the tokenizer output: exactly the split words that are not
stop words and have length at least 3. -/
theorem gtw_mem (t : String) (w : String) :
    w ∈ get_transcript_words t ↔
      w ∈ all_words t ∧ ¬ w ∈ stop_words ∧ 2 < w.length := by
  rw [get_transcript_words, mem_sortOrd, List.mem_dedup, List.mem_filter]
  constructor
  · rintro ⟨h1, h2⟩
    simp only [Bool.and_eq_true, Bool.not_eq_true', decide_eq_true_eq] at h2
    refine ⟨h1, ?_, h2.2⟩
    intro hmem
    rw [List.contains, (List.elem_iff).mpr hmem] at h2
    exact Bool.false_ne_true h2.1.symm
  · rintro ⟨h1, h2, h3⟩
    refine ⟨h1, ?_⟩
    simp only [Bool.and_eq_true, Bool.not_eq_true', decide_eq_true_eq]
    refine ⟨?_, h3⟩
    rw [List.contains]
    cases he : stop_words.elem w
    · rfl
    · exact absurd (List.elem_iff.mp he) h2

theorem gtw_pairwise (t : String) :
    (get_transcript_words t).Pairwise (fun a b => strLe a b = true) := by
  rw [get_transcript_words]
  exact pairwise_sortOrd strLe (fun a b => strLe_total a b)
    (fun a b c => strLe_trans a b c) _

theorem gtw_nodup (t : String) : (get_transcript_words t).Nodup := by
  rw [get_transcript_words]
  exact ((sortOrd_perm strLe _).nodup_iff).mpr (List.nodup_dedup _)

theorem toLower_eq_self_of_not_upper (c : Char)
    (h : ¬ (65 ≤ c.toNat ∧ c.toNat ≤ 90)) : c.toLower = c := by
  rw [Char.toLower, if_neg]
  exact h

theorem toLower_not_upper (c : Char) :
    ¬ (65 ≤ (c.toLower).toNat ∧ (c.toLower).toNat ≤ 90) := by
  rw [Char.toLower]
  by_cases h : 65 ≤ c.toNat ∧ c.toNat ≤ 90
  · rw [if_pos h]
    have hv : (c.toNat + 32).isValidChar := by
      left
      omega
    have : (Char.ofNat (c.toNat + 32)).toNat = c.toNat + 32 := by
      rw [Char.ofNat, dif_pos hv]
      rfl
    rw [this]
    omega
  · rw [if_neg h]
    exact h

/-- Every word produced by the accumulator splitter is nonempty, all its
characters satisfy any property holding on the input and the accumulator, and
none of its characters is whitespace. -/
theorem wordsAux_chars (p : Char → Bool) : ∀ cs acc : List Char,
    (∀ c ∈ cs, p c = true) → (∀ c ∈ acc, p c = true ∧ c.isWhitespace = false) →
    ∀ w ∈ wordsAux cs acc, w.toList ≠ [] ∧
      ∀ c ∈ w.toList, p c = true ∧ c.isWhitespace = false := by
  intro cs
  induction cs with
  | nil =>
    intro acc _ hacc w hw
    rw [wordsAux] at hw
    by_cases he : acc.isEmpty
    · rw [if_pos he] at hw
      exact absurd hw (List.not_mem_nil w)
    · rw [if_neg he] at hw
      rcases List.mem_singleton.mp hw with rfl
      constructor
      · intro hnil
        have : acc = [] := by
          have := congrArg List.reverse hnil
          simpa using this
        rw [this] at he
        exact he rfl
      · intro c hc
        exact hacc c (List.mem_reverse.mp hc)
  | cons d cs ih =>
    intro acc hcs hacc w hw
    rw [wordsAux] at hw
    by_cases hd : d.isWhitespace
    · rw [if_pos hd] at hw
      by_cases he : acc.isEmpty
      · rw [if_pos he] at hw
        exact ih [] (fun c hc => hcs c (List.mem_cons_of_mem d hc))
          (fun c hc => absurd hc (List.not_mem_nil c)) w hw
      · rw [if_neg he] at hw
        rcases List.mem_cons.mp hw with rfl | hw
        · constructor
          · intro hnil
            have : acc = [] := by
              have := congrArg List.reverse hnil
              simpa using this
            rw [this] at he
            exact he rfl
          · intro c hc
            exact hacc c (List.mem_reverse.mp hc)
        · exact ih [] (fun c hc => hcs c (List.mem_cons_of_mem d hc))
            (fun c hc => absurd hc (List.not_mem_nil c)) w hw
    · rw [if_neg hd] at hw
      refine ih (d :: acc) (fun c hc => hcs c (List.mem_cons_of_mem d hc)) ?_ w hw
      intro c hc
      rcases List.mem_cons.mp hc with rfl | hc
      · exact ⟨hcs c (List.mem_cons_self c cs), Bool.not_eq_true _ ▸ hd⟩
      · exact hacc c hc

/-- Every token of `all_words` is a nonempty word of non-whitespace word
characters on which `Char.toLower` is the identity. -/
theorem all_words_chars (t : String) : ∀ w ∈ all_words t, w.toList ≠ [] ∧
    ∀ c ∈ w.toList, isWordChar c = true ∧ c.isWhitespace = false ∧
      Char.toLower c = c := by
  intro w hw
  rw [all_words, splitWs] at hw
  have hp : ∀ c ∈ cleanL (lowerL t.toList),
      ((isWordChar c || c.isWhitespace) &&
        decide (¬ (65 ≤ c.toNat ∧ c.toNat ≤ 90))) = true := by
    intro c hc
    rw [cleanL] at hc
    rcases List.mem_filter.mp hc with ⟨hmem, hcond⟩
    rw [lowerL] at hmem
    rcases List.mem_map.mp hmem with ⟨c0, _, rfl⟩
    simp only [Bool.and_eq_true, decide_eq_true_eq]
    exact ⟨hcond, toLower_not_upper c0⟩
  have := wordsAux_chars _ (cleanL (lowerL t.toList)) [] hp
    (fun c hc => absurd hc (List.not_mem_nil c)) w hw
  refine ⟨this.1, ?_⟩
  intro c hc
  rcases (this.2 c hc) with ⟨hcond, hws⟩
  simp only [Bool.and_eq_true, Bool.or_eq_true, decide_eq_true_eq] at hcond
  rcases hcond with ⟨hwc | hwsc, hupper⟩
  · exact ⟨hwc, hws, toLower_eq_self_of_not_upper c hupper⟩
  · rw [hwsc] at hws
    exact absurd hws (by simp)

/-- C8: no tokenizer output token is a stop word or has length at most 2, the
output is sorted in code-point order with no duplicates, and membership is
exactly: a word of the cleaned split that is no stop word and is longer
than 2. -/
theorem C8_tokenizer_output (t : String) :
    (∀ w ∈ get_transcript_words t, ¬ w ∈ stop_words ∧ ¬ (w.length ≤ 2)) ∧
    (get_transcript_words t).Pairwise (fun a b => strLe a b = true) ∧
    (get_transcript_words t).Nodup ∧
    (∀ w, w ∈ get_transcript_words t ↔
      w ∈ all_words t ∧ ¬ w ∈ stop_words ∧ 2 < w.length) := by
  refine ⟨?_, gtw_pairwise t, gtw_nodup t, fun w => gtw_mem t w⟩
  intro w hw
  rcases (gtw_mem t w).mp hw with ⟨_, h2, h3⟩
  exact ⟨h2, by omega⟩

theorem list_map_id {α : Type} (f : α → α) (l : List α)
    (h : ∀ c ∈ l, f c = c) : l.map f = l := by
  induction l with
  | nil => rfl
  | cons c cs ih =>
    rw [List.map_cons, h c (List.mem_cons_self c cs),
      ih (fun d hd => h d (List.mem_cons_of_mem c hd))]

theorem wordsAux_skip_word (w : List Char) : ∀ rest acc : List Char,
    (∀ c ∈ w, c.isWhitespace = false) →
    wordsAux (w ++ rest) acc = wordsAux rest (w.reverse ++ acc) := by
  induction w with
  | nil =>
    intro rest acc _
    simp
  | cons c w' ih =>
    intro rest acc hw
    rw [List.cons_append, wordsAux,
      if_neg (by rw [hw c (List.mem_cons_self c w')]; exact Bool.false_ne_true),
      ih rest (c :: acc) (fun d hd => hw d (List.mem_cons_of_mem c hd)),
      List.reverse_cons, List.append_assoc, List.singleton_append]

theorem splitWs_joinSpaceL : ∀ M : List (List Char),
    (∀ w ∈ M, w ≠ [] ∧ ∀ c ∈ w, c.isWhitespace = false) →
    splitWs (joinSpaceL M) = M.map String.mk := by
  intro M
  induction M with
  | nil =>
    intro _
    rfl
  | cons w M' ih =>
    intro hM
    rcases hM w (List.mem_cons_self w M') with ⟨hne, hnws⟩
    have hrevne : w.reverse ≠ [] := by
      intro hnil
      have := congrArg List.reverse hnil
      simp at this
      exact hne this
    cases M' with
    | nil =>
      show splitWs w = [String.mk w]
      rw [splitWs, ← List.append_nil w, wordsAux_skip_word w [] [] hnws, wordsAux]
      rw [if_neg (by simpa [List.isEmpty_iff] using hrevne)]
      simp
    | cons x xs =>
      show splitWs (w ++ ' ' :: joinSpaceL (x :: xs)) = String.mk w :: (x :: xs).map String.mk
      rw [splitWs, wordsAux_skip_word w (' ' :: joinSpaceL (x :: xs)) [] hnws, wordsAux]
      rw [if_pos (by decide), if_neg (by simpa [List.isEmpty_iff] using hrevne)]
      rw [← splitWs, ih (fun v hv => hM v (List.mem_cons_of_mem w hv))]
      simp

theorem mem_joinSpaceL : ∀ (M : List (List Char)) (c : Char),
    c ∈ joinSpaceL M → (∃ w ∈ M, c ∈ w) ∨ c = ' ' := by
  intro M
  induction M with
  | nil =>
    intro c hc
    exact absurd hc (List.not_mem_nil c)
  | cons w M' ih =>
    intro c hc
    cases M' with
    | nil =>
      exact Or.inl ⟨w, List.mem_cons_self w [], hc⟩
    | cons x xs =>
      have hc' : c ∈ w ++ ' ' :: joinSpaceL (x :: xs) := hc
      rcases List.mem_append.mp hc' with hc2 | hc2
      · exact Or.inl ⟨w, List.mem_cons_self w (x :: xs), hc2⟩
      · rcases List.mem_cons.mp hc2 with rfl | hc3
        · exact Or.inr rfl
        · rcases ih c hc3 with ⟨v, hv, hcv⟩ | rfl
          · exact Or.inl ⟨v, List.mem_cons_of_mem w hv, hcv⟩
          · exact Or.inr rfl

theorem contains_eq_false_of_not_mem (l : List String) (w : String)
    (h : ¬ w ∈ l) : l.contains w = false := by
  rw [List.contains]
  cases he : l.elem w
  · rfl
  · exact absurd (List.elem_iff.mp he) h

/-- C9: tokenization is idempotent — re-tokenizing the space-joined output of
the tokenizer reproduces exactly the same token list. -/
theorem C9_tokenize_idempotent (t : String) :
    get_transcript_words (joinTokens (get_transcript_words t)) =
      get_transcript_words t := by
  have hCh : ∀ w ∈ get_transcript_words t, w.toList ≠ [] ∧
      ∀ c ∈ w.toList, isWordChar c = true ∧ c.isWhitespace = false ∧
        Char.toLower c = c := by
    intro w hw
    exact all_words_chars t w ((gtw_mem t w).mp hw).1
  have hMw : ∀ w ∈ (get_transcript_words t).map String.toList,
      w ≠ [] ∧ ∀ c ∈ w, c.isWhitespace = false := by
    intro w hw
    rcases List.mem_map.mp hw with ⟨w0, hw0, rfl⟩
    rcases hCh w0 hw0 with ⟨h1, h2⟩
    exact ⟨h1, fun c hc => (h2 c hc).2.1⟩
  have h0 : (joinTokens (get_transcript_words t)).toList =
      joinSpaceL ((get_transcript_words t).map String.toList) := rfl
  have h1 : lowerL (joinSpaceL ((get_transcript_words t).map String.toList)) =
      joinSpaceL ((get_transcript_words t).map String.toList) := by
    rw [lowerL]
    apply list_map_id
    intro c hc
    rcases mem_joinSpaceL _ c hc with ⟨w, hwM, hcw⟩ | rfl
    · rcases List.mem_map.mp hwM with ⟨w0, hw0, rfl⟩
      exact ((hCh w0 hw0).2 c hcw).2.2
    · rfl
  have h2 : cleanL (joinSpaceL ((get_transcript_words t).map String.toList)) =
      joinSpaceL ((get_transcript_words t).map String.toList) := by
    rw [cleanL]
    apply List.filter_eq_self.mpr
    intro c hc
    rcases mem_joinSpaceL _ c hc with ⟨w, hwM, hcw⟩ | rfl
    · rcases List.mem_map.mp hwM with ⟨w0, hw0, rfl⟩
      rw [((hCh w0 hw0).2 c hcw).1]
      rfl
    · rfl
  have h3 : splitWs (joinSpaceL ((get_transcript_words t).map String.toList)) =
      ((get_transcript_words t).map String.toList).map String.mk :=
    splitWs_joinSpaceL _ hMw
  have h4 : ((get_transcript_words t).map String.toList).map String.mk =
      get_transcript_words t := by
    rw [List.map_map]
    exact list_map_id _ _ (fun w _ => rfl)
  have h5 : all_words (joinTokens (get_transcript_words t)) =
      get_transcript_words t := by
    rw [all_words, h0, h1, h2, h3, h4]
  have h6 : (get_transcript_words t).filter
      (fun word => !stop_words.contains word && decide (2 < word.length)) =
      get_transcript_words t := by
    apply List.filter_eq_self.mpr
    intro w hw
    rcases (gtw_mem t w).mp hw with ⟨_, hstop, hlen⟩
    rw [contains_eq_false_of_not_mem stop_words w hstop]
    simpa using hlen
  have h7 : (get_transcript_words t).dedup = get_transcript_words t :=
    List.dedup_eq_self.mpr (gtw_nodup t)
  have h8 : sortOrd strLe (get_transcript_words t) = get_transcript_words t :=
    sortOrd_eq_self strLe _ (gtw_pairwise t)
  calc get_transcript_words (joinTokens (get_transcript_words t))
      = sortOrd strLe (((all_words (joinTokens (get_transcript_words t))).filter
          (fun word => !stop_words.contains word && decide (2 < word.length))).dedup) := by
        rw [get_transcript_words]
    _ = get_transcript_words t := by
        rw [h5, h6, h7, h8]
